import Mathlib

/-!
Shallow embedding of the KazooHR/typeorm-pagination cursor-pagination engine
(`src/unnamed/part_001`, class `CursorPaginator`, and `src/unnamed/part_000`,
`findWithPagination`) together with proofs about the claims of its
specification.

Modelling conventions:
* JS strings are modelled as `List Char`.
* JS objects used as ordered string-keyed maps (`Order`) are association
  lists whose key order models JS property insertion order; `objSet` models
  `obj[k] = v` / object-spread overwrite semantics (overwriting keeps the
  key's original position, a fresh key is appended).
* JS truthiness is modelled explicitly (`Scalar.truthy`, `natTruthy`,
  `strTruthy`): `undefined`, `null`, `0`, and the empty string are falsy.
* Scalar row values are dates, integers, strings or null.  A JS `Date` is
  identified by its ISO-8601 serialization (`JSON.stringify` of a `Date`
  produces that string, and `JSON.parse` never reconstructs a `Date`).
* `JSON.stringify`/`JSON.parse` are modelled for exactly the token shapes
  the codec produces: JSON arrays of strings at the outer layer and
  null / integer / string literals at the inner layer, with `"` and `\`
  escaped.  Fuel-based recursion keeps every parser structurally
  recursive, hence kernel-evaluable.
* SQL comparison of column values is modelled by an arbitrary linear order.
-/

namespace TPag

/-- `Direction` from the source: `type Direction = "ASC" | "DESC"`. -/
inductive Direction
  | ASC
  | DESC
deriving DecidableEq, Repr

/-- Inverting one direction, as in `CursorPaginator.reverseOrdering`:
`direction === "ASC" ? "DESC" : "ASC"`. -/
def Direction.invert : Direction → Direction
  | .ASC => .DESC
  | .DESC => .ASC

/-- A normalized `Order` (`Record<string, Direction>`): an association list
of (column key, direction) in JS property insertion order. -/
abbrev OrderL : Type := List (List Char × Direction)

/-- A scalar value of a raw row
(`type Row = Record<string, Date | string | number | object>`; structured
`object` values are outside the claims and not modelled). -/
inductive Scalar
  | null
  | num (n : Int)
  | str (s : List Char)
  | date (iso : List Char)
deriving DecidableEq, Repr

/-- JS truthiness of a scalar: `null`, `0` and `""` are falsy; `Date`
objects are always truthy. -/
def Scalar.truthy : Scalar → Bool
  | .null => false
  | .num n => n != 0
  | .str s => !s.isEmpty
  | .date _ => true

/-- A raw row: association list from raw column name to scalar value. -/
abbrev RowL : Type := List (List Char × Scalar)

/-! ## BoundaryPredicateBuilder (`CursorPaginator.applyWhere`)

`applyWhere` recursively emits, for the column at the current index,
`const comparator = isBefore !== isReversed ? "<" : ">"` and the clauses
`totalOrder = expr comparator param` / `partialOrder = expr comparator= param`;
the last column (the discriminant) emits `totalOrder` alone, every earlier
column emits `partialOrder AND (totalOrder OR recurse)`.  We model the
truth value of the generated SQL on one row: each list entry is
`(direction, position value, row value)` for one column, in order. -/

variable {α : Type}

/-- Truth value of `totalOrder` (`row cmp position` with the strict
comparator `isBefore !== isReversed ? "<" : ">"`). -/
def strictCmp [LinearOrder α] (isBefore isReversed : Bool) (x v : α) : Bool :=
  if isBefore != isReversed then decide (x < v) else decide (v < x)

/-- Truth value of `partialOrder` (same polarity, inclusive: `<=` / `>=`). -/
def nonStrictCmp [LinearOrder α] (isBefore isReversed : Bool) (x v : α) : Bool :=
  if isBefore != isReversed then decide (x ≤ v) else decide (v ≤ x)

/-- Truth value on one row of the WHERE tree built by
`CursorPaginator.applyWhere`, by recursion over the column list.  The
empty list never occurs in the source (the normalized order always
contains at least the `id` tie-breaker). -/
def applyWhere [LinearOrder α] (isBefore : Bool) :
    List (Direction × α × α) → Bool
  | [] => false
  | [(d, v, x)] => strictCmp isBefore (d == Direction.DESC) x v
  | (d, v, x) :: e :: rest =>
      nonStrictCmp isBefore (d == Direction.DESC) x v
        && (strictCmp isBefore (d == Direction.DESC) x v
              || applyWhere isBefore (e :: rest))

/-- Specification-side definition: `a` sorts strictly before `b` under one
column's direction. -/
def colBefore [LinearOrder α] (d : Direction) (a b : α) : Bool :=
  match d with
  | .ASC => decide (a < b)
  | .DESC => decide (b < a)

/-- Specification-side definition (from the spec's words, for comparison
with `applyWhere`): the row tuple lies strictly past the position tuple
under per-column-direction lexicographic order, in the direction of
travel (`AFTER` = row past position, `BEFORE` = row before position).
Entries are `(direction, position value, row value)`. -/
def lexPast [LinearOrder α] [DecidableEq α] (isBefore : Bool) :
    List (Direction × α × α) → Bool
  | [] => false
  | (d, v, x) :: rest =>
      (if isBefore then colBefore d x v else colBefore d v x)
        || (decide (x = v) && lexPast isBefore rest)

/-! ## CursorCodec (`encodeCursor` / `decodeCursor`)

`encodeCursor` is `JSON.stringify(Object.keys(order).map(c =>
JSON.stringify(row[c.replace(".", "_")] || null)))` — a JSON array of
strings, each element being the JSON text of one scalar.  `decodeCursor`
is `JSON.parse(cursor).map(item => JSON.parse(item))`.  We model the
relevant fragment of `JSON.stringify`/`JSON.parse`. -/

/-- JSON string-body escaping: `"` and `\` get a preceding backslash
(the only characters `JSON.stringify` must escape in the strings at
hand; control characters do not occur in the tokens considered). -/
def escChars : List Char → List Char
  | [] => []
  | c :: cs =>
      if c = '"' || c = '\\' then '\\' :: c :: escChars cs
      else c :: escChars cs

/-- A JSON string literal: opening quote, escaped body, closing quote. -/
def quoteChars (s : List Char) : List Char :=
  '"' :: escChars s ++ ['"']

/-- The decimal digit character for `d < 10`. -/
def digitChar : Nat → Char
  | 0 => '0'
  | 1 => '1'
  | 2 => '2'
  | 3 => '3'
  | 4 => '4'
  | 5 => '5'
  | 6 => '6'
  | 7 => '7'
  | 8 => '8'
  | _ => '9'

/-- Decimal digits of a natural number, most significant first
(fuel-based so the definition is structurally recursive; `natDigits`
supplies enough fuel). -/
def natDigitsF : Nat → Nat → List Char
  | 0, _ => []
  | fuel + 1, n =>
      if n < 10 then [digitChar n]
      else natDigitsF fuel (n / 10) ++ [digitChar (n % 10)]

def natDigits (n : Nat) : List Char := natDigitsF (n + 1) n

/-- `JSON.stringify` of an integral JS number (`(-5).toString() = "-5"`). -/
def intReprChars (n : Int) : List Char :=
  if n < 0 then '-' :: natDigits n.natAbs else natDigits n.toNat

/-- A JS `Date` is JSON-serialized via `Date.prototype.toJSON` as its
ISO-8601 string; `JSON.parse` therefore yields a plain string for it. -/
def stringifyScalar : Scalar → List Char
  | .null => ['n', 'u', 'l', 'l']
  | .num n => intReprChars n
  | .str s => quoteChars s
  | .date iso => quoteChars iso

/-- Numeric value of a decimal digit character. -/
def digitVal (c : Char) : Option Nat :=
  if 48 ≤ c.toNat ∧ c.toNat ≤ 57 then some (c.toNat - 48) else none

/-- Parse a non-empty all-digit string as a natural number. -/
def parseNatChars (cs : List Char) : Option Nat :=
  match cs with
  | [] => none
  | _ =>
      cs.foldl
        (fun acc c => acc.bind (fun v => (digitVal c).map (fun d => 10 * v + d)))
        (some 0)

/-- Parse an optionally `-`-signed integer literal. -/
def parseIntChars : List Char → Option Int
  | [] => none
  | c :: rest =>
      if c = '-' then (parseNatChars rest).map (fun v => -(v : Int))
      else (parseNatChars (c :: rest)).map (fun v => (v : Int))

/-- Scan a JSON string body up to its closing quote, undoing escapes;
returns the body and the remaining input after the closing quote. -/
def scanQuoted : List Char → Option (List Char × List Char)
  | [] => none
  | '"' :: cs => some ([], cs)
  | '\\' :: [] => none
  | '\\' :: e :: cs => (scanQuoted cs).map (fun p => (e :: p.1, p.2))
  | c :: cs => (scanQuoted cs).map (fun p => (c :: p.1, p.2))

def nullChars : List Char := ['n', 'u', 'l', 'l']

/-- `JSON.parse` of a single scalar JSON text (null, integer or string —
the only shapes `encodeCursor` emits). -/
def parseScalarChars (cs : List Char) : Option Scalar :=
  if cs = nullChars then some Scalar.null
  else
    match cs with
    | [] => none
    | c :: rest =>
        if c = '"' then
          match scanQuoted rest with
          | some (s, r) => if r = [] then some (Scalar.str s) else none
          | none => none
        else (parseIntChars (c :: rest)).map Scalar.num

/-- The element list of a JSON array of strings, comma-separated. -/
def arrayItemsChars : List (List Char) → List Char
  | [] => []
  | [x] => quoteChars x
  | x :: y :: rest => quoteChars x ++ ',' :: arrayItemsChars (y :: rest)

/-- `JSON.stringify` of an array of strings. -/
def stringifyStrArray (xs : List (List Char)) : List Char :=
  '[' :: arrayItemsChars xs ++ [']']

/-- Parse the items of a JSON array of strings after the opening `[`
(fuel-based for structural recursion; callers pass the input length). -/
def parseArrayItemsF : Nat → List Char → Option (List (List Char))
  | 0, _ => none
  | fuel + 1, cs =>
      match cs with
      | [] => none
      | c :: rest =>
          if c = '"' then
            match scanQuoted rest with
            | some (s, r) =>
                match r with
                | [] => none
                | rc :: r2 =>
                    if rc = ']' then (if r2 = [] then some [s] else none)
                    else if rc = ',' then
                      (parseArrayItemsF fuel r2).map (fun t => s :: t)
                    else none
            | none => none
          else none

/-- `JSON.parse` of a JSON array of strings. -/
def parseStrArrayChars : List Char → Option (List (List Char))
  | [] => none
  | c :: rest =>
      if c = '[' then
        if rest = [']'] then some [] else parseArrayItemsF rest.length rest
      else none

/-- Parse every item of the decoded array; one failure fails the whole
decode (JS: the exception from `JSON.parse(item)` aborts the `.map`). -/
def parseItems : List (List Char) → Option (List Scalar)
  | [] => some []
  | x :: xs =>
      match parseScalarChars x, parseItems xs with
      | some v, some vs => some (v :: vs)
      | _, _ => none

/-- `CursorPaginator.decodeCursor`:
`JSON.parse(cursor).map((item) => JSON.parse(item))`.  A token that is
not a JSON array of scalar-denoting strings fails as a whole (JS throws
a `SyntaxError`; modelled as `none`). -/
def decodeCursorChars (cs : List Char) : Option (List Scalar) :=
  (parseStrArrayChars cs).bind parseItems

/-- Cursor encoding of a list of scalar values (the inner part of
`encodeCursor`, once the values have been extracted from the row). -/
def encodeCursorChars (vals : List Scalar) : List Char :=
  stringifyStrArray (vals.map stringifyScalar)

/-- JS `s.replace(a, b)` with single-character string pattern `a`:
replaces only the first occurrence. -/
def replaceFirstChar (a b : Char) : List Char → List Char
  | [] => []
  | c :: cs => if c = a then b :: cs else c :: replaceFirstChar a b cs

/-- The value `row[column.replace(".", "_")] || null` used by
`encodeCursor` for one order column: raw-row lookup under the
underscored name, with every falsy value collapsed to `null`. -/
def extractValue (row : RowL) (column : List Char) : Scalar :=
  match List.lookup (replaceFirstChar '.' '_' column) row with
  | some v => if v.truthy then v else Scalar.null
  | none => Scalar.null

/-- `CursorPaginator.encodeCursor row`: JSON array of the JSON texts of
the extracted values, one per column of the normalized order. -/
def encodeCursorRowChars (order : OrderL) (row : RowL) : List Char :=
  stringifyStrArray
    ((order.map Prod.fst).map (fun column => stringifyScalar (extractValue row column)))

/-- What survives a `JSON.stringify`/`JSON.parse` round trip: dates
degrade to their ISO string, everything else is preserved. -/
def jsonNormalize : Scalar → Scalar
  | .date iso => .str iso
  | v => v

/-! ## OrderNormalizer (`CursorPaginator.buildOrdering`) -/

/-- JS object property assignment `obj[k] = v` (also the effect on key `k`
of object spread followed by a literal entry, as in
`{ ...order, id: "ASC" }`): an existing key keeps its original position
and gets the new value; a fresh key is appended last. -/
def objSet (o : OrderL) (k : List Char) (d : Direction) : OrderL :=
  if o.any (fun p => p.1 == k) then
    o.map (fun p => if p.1 == k then (k, d) else p)
  else o ++ [(k, d)]

/-- JS truthiness of `this.virtual[property]`
(`isVirtual`: `!!this.virtual[property]`). -/
def virtualTruthy (virtual : List Char → Option (List Char)) (p : List Char) : Bool :=
  match virtual p with
  | some e => !e.isEmpty
  | none => false

/-- Whether a property name contains a `.` (`property.includes(".")`). -/
def isAliasedName (p : List Char) : Bool := p.contains '.'

/-- `CursorPaginator.buildOrdering`: merge `id: "ASC"` into the caller
order via object spread, then rewrite each non-aliased, non-virtual
property to `alias.column` (using the metadata mapping
`findColumnWithPropertyName(property)?.databaseName || property`).
`aliasName` is the query's main alias name, `meta` the metadata column
resolver, `virtual` the virtual-column map. -/
def buildOrdering (aliasName : List Char) (meta : List Char → Option (List Char))
    (virtual : List Char → Option (List Char)) (order : OrderL) : OrderL :=
  let idChars : List Char := ['i', 'd']
  let baseOrder := objSet order idChars Direction.ASC
  baseOrder.foldl
    (fun built pd =>
      if isAliasedName pd.1 || virtualTruthy virtual pd.1 then
        objSet built pd.1 pd.2
      else
        let column :=
          match meta pd.1 with
          | some dbName => if dbName.isEmpty then pd.1 else dbName
          | none => pd.1
        objSet built (aliasName ++ '.' :: column) pd.2)
    []

/-! ## Column escaping (`CursorPaginator.escapeColumn`) -/

/-- JS `column.replace('"', "")`: string-pattern `replace` removes only
the first double-quote occurrence. -/
def replaceFirstQuote : List Char → List Char
  | [] => []
  | c :: cs => if c = '"' then cs else c :: replaceFirstQuote cs

/-- JS `s.split(".")`: split on every `.` (empty string gives `[""]`). -/
def splitOnDot : List Char → List (List Char)
  | [] => [[]]
  | c :: cs =>
      let r := splitOnDot cs
      if c = '.' then [] :: r
      else
        match r with
        | [] => [[c]]
        | h :: t => (c :: h) :: t

/-- `CursorPaginator.escapeColumn` with the driver's identifier escape
function abstracted as `esc`:
`column.replace('"', "").split(".").map(esc).join(".")`. -/
def escapeColumn (esc : List Char → List Char) (column : List Char) : List Char :=
  List.intercalate ['.'] ((splitOnDot (replaceFirstQuote column)).map esc)

/-! ## PageExecutor (`CursorPaginator.page`, `Page`, `findWithPagination`)

The query builder is modelled by the state the engine mutates: the ORDER
BY list, the cursor boundary predicates added by `applyCursor` (recorded
as the data they are built from: boundary side, the ordering whose
directions set comparator polarity, and the decoded position), and the
row limit.  `addSelect` for virtual columns and the base WHERE conditions
are outside every claim and not modelled. -/

/-- `PageOptions` (`first?/last?: number`, `after?/before?: string`). -/
structure PageOptionsM where
  first : Option Nat
  last : Option Nat
  after : Option (List Char)
  before : Option (List Char)
deriving DecidableEq, Repr

/-- JS truthiness of an optional numeric argument (`if (last)`,
`last ? ... : ...`): absent and `0` are falsy. -/
def natTruthy : Option Nat → Bool
  | none => false
  | some n => n != 0

/-- JS truthiness of an optional string argument (`if (after)`,
`!!after`): absent and the empty string are falsy. -/
def strTruthy : Option (List Char) → Bool
  | none => false
  | some s => !s.isEmpty

/-- Value-level translation of the conditional type `ValidatePageOptions`:
`first` and `last` both present is rejected (`never`); otherwise an
options object with `first` present, or with `last` present, passes
through; anything else (neither present) is rejected. -/
def validatePageOptions (o : PageOptionsM) : Option PageOptionsM :=
  if o.first.isSome && o.last.isSome then none
  else if o.first.isSome then some o
  else if o.last.isSome then some o
  else none

/-- One boundary predicate added by `CursorPaginator.applyCursor`,
recorded as the data `applyWhere` is called with: `isBefore`, the
ordering supplying per-column comparator polarity (always `this.order`),
and the decoded cursor position. -/
structure CursorClause where
  isBefore : Bool
  polarityOrder : OrderL
  position : List Scalar
deriving DecidableEq, Repr

/-- The mutable query-builder state the paginator touches. -/
structure QueryPlan where
  orderBy : OrderL
  clauses : List CursorClause
  limitN : Option Nat
deriving DecidableEq, Repr

/-- `applyOrdering`'s loop body: index 0 issues `orderBy` (resetting any
previous ORDER BY), later indices issue `addOrderBy` (appending). -/
def addOrderingsFrom : QueryPlan → Nat → OrderL → QueryPlan
  | q, _, [] => q
  | q, i, cd :: rest =>
      addOrderingsFrom
        (if i = 0 then { q with orderBy := [cd] }
         else { q with orderBy := q.orderBy ++ [cd] })
        (i + 1) rest

/-- `CursorPaginator.applyOrdering query order`. -/
def applyOrderingM (q : QueryPlan) (order : OrderL) : QueryPlan :=
  addOrderingsFrom q 0 order

/-- `CursorPaginator.reverseOrdering`'s inverted order
(`order[column] = direction === "ASC" ? "DESC" : "ASC"`). -/
def reverseOrderingL (order : OrderL) : OrderL :=
  order.map (fun cd => (cd.1, cd.2.invert))

/-- The query held by a freshly constructed paginator: a clone of the
base query with the normalized ordering applied. -/
def paginatorQuery (order : OrderL) : QueryPlan :=
  applyOrderingM { orderBy := [], clauses := [], limitN := none } order

/-- `CursorPaginator.applyCursor query cursor isBefore`: decode the
token (a JSON failure propagates as an exception) and AND-in the
boundary predicate built by `applyWhere` from `this.order` (the
original, never the inverted, ordering) and the decoded position. -/
def applyCursorM (order : OrderL) (q : QueryPlan) (tok : List Char)
    (isBefore : Bool) : Except (List Char) QueryPlan :=
  match decodeCursorChars tok with
  | some position =>
      .ok { q with clauses := q.clauses ++ [⟨isBefore, order, position⟩] }
  | none => .error tok

/-- `if (after) this.applyCursor(query, after)` — the cursor is applied
only when the token is truthy (present and non-empty). -/
def applyCursorIfTruthy (order : OrderL) (tok : Option (List Char))
    (isBefore : Bool) (q : QueryPlan) : Except (List Char) QueryPlan :=
  match tok with
  | some t => if t.isEmpty then .ok q else applyCursorM order q t isBefore
  | none => .ok q

/-- The query-building part of `CursorPaginator.page` (lines 125–131):
`pageSize = first ?? last`; clone the constructor query; reverse the
ordering when `last` is truthy; apply truthy `after`/`before` cursors;
set `limit(pageSize + 1)`.  No validation of `first`/`last` happens at
runtime. -/
def pagePlan (order : OrderL) (opts : PageOptionsM) :
    Except (List Char) QueryPlan :=
  let pageSize : Option Nat :=
    match opts.first with
    | some f => some f
    | none => opts.last
  let q0 := paginatorQuery order
  let q1 :=
    if natTruthy opts.last then applyOrderingM q0 (reverseOrderingL order)
    else q0
  match applyCursorIfTruthy order opts.after false q1 with
  | .error e => .error e
  | .ok q2 =>
      match applyCursorIfTruthy order opts.before true q2 with
      | .error e => .error e
      | .ok q3 => .ok { q3 with limitN := pageSize.map (fun k => k + 1) }

/-- Whether an `Except` result is a success. -/
def exceptOk {ε γ : Type} : Except ε γ → Bool
  | .ok _ => true
  | .error _ => false

/-- `(hasNext, hasPrevious)` from `page` lines 132–136:
`first !== undefined ? { hasNext: hasMore, hasPrevious: !!after }
: { hasNext: !!before, hasPrevious: hasMore }`. -/
def pageFlagsM (first : Option Nat) (after before : Option (List Char))
    (hasMore : Bool) : Bool × Bool :=
  if first.isSome then (hasMore, strTruthy after) else (strTruthy before, hasMore)

/-- The `Page` result model: the fetched entity and raw lists (in the
order the query returned them), the page size, the flags, and the
paginator's normalized order (used for per-edge cursors). -/
structure PageM (β : Type) where
  entities : List β
  raw : List RowL
  pageSize : Nat
  hasNext : Bool
  hasPrevious : Bool
  order : OrderL

/-- `pageSize = first ?? last` (nullish coalescing, so `first: 0`
counts).  When neither is present `pageSize` is `undefined` in JS; `0`
stands in for that unreachable-under-validation value. -/
def optPageSize (opts : PageOptionsM) : Nat :=
  (match opts.first with
   | some f => some f
   | none => opts.last).getD 0

/-- The flag/wrap part of `CursorPaginator.page` (lines 131–142), given
the rows the query returned.  `hasMore = result.raw.length > pageSize`. -/
def mkPage {β : Type} (order : OrderL) (opts : PageOptionsM)
    (entities : List β) (raw : List RowL) : PageM β :=
  let hasMore := decide (optPageSize opts < raw.length)
  let fl := pageFlagsM opts.first opts.after opts.before hasMore
  ⟨entities, raw, optPageSize opts, fl.1, fl.2, order⟩

/-- `Page.edges`: `entities.slice(0, pageSize)` paired index-wise with
the raw rows (`this.result.raw[index]`). -/
def PageM.edges {β : Type} (p : PageM β) : List (β × RowL) :=
  (p.entities.take p.pageSize).zip p.raw

/-- `Page.startCursor`: the first edge's cursor, if any
(`Edge.cursor` encodes the edge's raw row under the paginator order). -/
def PageM.startCursor {β : Type} (p : PageM β) : Option (List Char) :=
  p.edges.head?.map (fun e => encodeCursorRowChars p.order e.2)

/-- `Page.endCursor`: the last edge's cursor, if any. -/
def PageM.endCursor {β : Type} (p : PageM β) : Option (List Char) :=
  p.edges.getLast?.map (fun e => encodeCursorRowChars p.order e.2)

/-- The pagination-options handling of `findWithPagination`
(`src/unnamed/part_000` lines 182–185):
`const { first = 100, last, after, before } = pagination ?? {};
const pageOptions = last ? { last, after, before } : { first, after, before }`. -/
def pageOptionsOf (pagination : Option PageOptionsM) : PageOptionsM :=
  let p := pagination.getD ⟨none, none, none, none⟩
  let first := p.first.getD 100
  if natTruthy p.last then ⟨none, p.last, p.after, p.before⟩
  else ⟨some first, none, p.after, p.before⟩

/-! ## Concrete inputs used by counterexamples and evaluations -/

/-- A one-column normalized order (the `id` tie-breaker alone). -/
def idOnlyOrder : OrderL := [(['i', 'd'], Direction.ASC)]

/-- An ISO-like date serialization used in the date counterexample. -/
def c2Iso : List Char := ['2', '0', '2', '1']

/-- A raw row whose `id` sort-key value is a JS `Date`. -/
def c2Row : RowL := [(['i', 'd'], Scalar.date c2Iso)]

/-- A two-column normalized order, for the length-mismatch decode. -/
def c8Order : OrderL := [(['a'], Direction.ASC), (['E', '.', 'i', 'd'], Direction.ASC)]

/-- A well-formed cursor token holding a single value. -/
def c8Token : List Char := encodeCursorChars [Scalar.num 1]

/-- A caller ordering that already contains the discriminant `id`,
first and descending: `{ id: "DESC", n: "ASC" }`. -/
def c4CallerOrder : OrderL := [(['i', 'd'], Direction.DESC), (['n'], Direction.ASC)]

/-- A driver escape function that brackets its input, making visible
exactly which identifier text reaches the driver. -/
def c10Esc (s : List Char) : List Char := '<' :: s ++ ['>']

/-! ## Supporting lemmas: the cursor codec round trip -/

theorem scanQuoted_esc (s rest : List Char) :
    scanQuoted (escChars s ++ '"' :: rest) = some (s, rest) := by
  induction s with
  | nil => simp [escChars, scanQuoted]
  | cons c cs ih =>
    by_cases h : c = '"' ∨ c = '\\'
    · have he : escChars (c :: cs) = '\\' :: c :: escChars cs := by
        simp [escChars]
        tauto
      rw [he]
      simp [scanQuoted, ih]
    · push_neg at h
      have he : escChars (c :: cs) = c :: escChars cs := by
        simp [escChars, h.1, h.2]
      rw [he, List.cons_append, scanQuoted]
      · simp [ih]
      · intro hc
        exact absurd hc h.1
      · intro hc _
        exact absurd hc h.2
      · intro _ _ hc _
        exact absurd hc h.2

theorem digitVal_digitChar (d : Nat) (h : d < 10) :
    digitVal (digitChar d) = some d := by
  interval_cases d <;> decide

theorem digitChar_props (d : Nat) (h : d < 10) :
    digitChar d ≠ '-' ∧ digitChar d ≠ '"' ∧ digitChar d ≠ 'n' := by
  interval_cases d <;> refine ⟨by decide, by decide, by decide⟩

theorem natDigitsF_shape (fuel : Nat) :
    ∀ n, n < fuel → ∃ d rest, d < 10 ∧ natDigitsF fuel n = digitChar d :: rest := by
  induction fuel with
  | zero => intro n h; omega
  | succ fuel ih =>
    intro n _
    by_cases h10 : n < 10
    · exact ⟨n, [], h10, by simp [natDigitsF, h10]⟩
    · have hdiv : n / 10 < fuel := by omega
      obtain ⟨d, rest, hd, heq⟩ := ih (n / 10) hdiv
      refine ⟨d, rest ++ [digitChar (n % 10)], hd, ?_⟩
      simp [natDigitsF, h10, heq]


theorem parseNat_append_digit (a : List Char) (c : Char) (v d : Nat)
    (ha : a ≠ []) (hv : parseNatChars a = some v) (hd : digitVal c = some d) :
    parseNatChars (a ++ [c]) = some (10 * v + d) := by
  match a with
  | x :: xs =>
    rw [parseNatChars] at hv ⊢
    · simp only [List.cons_append]
      rw [← List.cons_append, List.foldl_append, hv]
      simp [hd]
    · simp
    · simp

theorem parseNat_natDigitsF (fuel : Nat) :
    ∀ n, n < fuel → parseNatChars (natDigitsF fuel n) = some n := by
  induction fuel with
  | zero => intro n h; omega
  | succ fuel ih =>
    intro n _
    by_cases h10 : n < 10
    · simp [natDigitsF, h10, parseNatChars, digitVal_digitChar n h10]
    · have h1 : n / 10 < fuel := by omega
      have h2 := ih (n / 10) h1
      have hne : natDigitsF fuel (n / 10) ≠ [] := by
        obtain ⟨d, rest, _, heq⟩ := natDigitsF_shape fuel (n / 10) h1
        simp [heq]
      rw [natDigitsF, if_neg h10]
      rw [parseNat_append_digit _ _ _ _ hne h2 (digitVal_digitChar _ (by omega))]
      congr 1
      omega

theorem parseInt_intRepr (n : Int) : parseIntChars (intReprChars n) = some n := by
  by_cases hn : n < 0
  · rw [intReprChars, if_pos hn, parseIntChars]
    rw [if_pos rfl]
    rw [natDigits, parseNat_natDigitsF (n.natAbs + 1) n.natAbs (by omega)]
    exact congrArg some (show -(n.natAbs : Int) = n by omega)
  · rw [intReprChars, if_neg hn]
    obtain ⟨d, rest, hd, heq⟩ := natDigitsF_shape (n.toNat + 1) n.toNat (by omega)
    rw [natDigits, heq, parseIntChars, if_neg (digitChar_props d hd).1, ← heq,
      parseNat_natDigitsF _ _ (by omega)]
    exact congrArg some (show ((n.toNat : Int)) = n by omega)


theorem parseScalar_quote (s : List Char) :
    parseScalarChars (quoteChars s) = some (Scalar.str s) := by
  rw [quoteChars, parseScalarChars.eq_def]
  rw [if_neg (by simp [nullChars])]
  have h : escChars s ++ ['"'] = escChars s ++ '"' :: [] := rfl
  simp [h, scanQuoted_esc s []]

theorem parseScalar_int (n : Int) :
    parseScalarChars (intReprChars n) = some (Scalar.num n) := by
  obtain ⟨c, rest, hc1, hc2, heq⟩ :
      ∃ c rest, c ≠ '"' ∧ c ≠ 'n' ∧ intReprChars n = c :: rest := by
    by_cases hn : n < 0
    · exact ⟨'-', natDigits n.natAbs, by decide, by decide, by rw [intReprChars, if_pos hn]⟩
    · obtain ⟨d, rest, hd, hsh⟩ := natDigitsF_shape (n.toNat + 1) n.toNat (by omega)
      exact ⟨digitChar d, rest, (digitChar_props d hd).2.1, (digitChar_props d hd).2.2,
        by rw [intReprChars, if_neg hn]; exact hsh⟩
  rw [heq, parseScalarChars.eq_def]
  rw [if_neg (by simp [nullChars, hc2])]
  simp only [if_neg hc1]
  rw [← heq, parseInt_intRepr]
  rfl

theorem parseScalar_stringify (v : Scalar) :
    parseScalarChars (stringifyScalar v) = some (jsonNormalize v) := by
  cases v with
  | null => rfl
  | num n => exact parseScalar_int n
  | str s => exact parseScalar_quote s
  | date iso => exact parseScalar_quote iso

theorem arrayItems_head (x : List Char) (t : List (List Char)) :
    ∃ tail, arrayItemsChars (x :: t) = '"' :: tail := by
  cases t with
  | nil => exact ⟨escChars x ++ ['"'], by simp [arrayItemsChars, quoteChars]⟩
  | cons y t => exact ⟨escChars x ++ ['"'] ++ ',' :: arrayItemsChars (y :: t),
      by simp [arrayItemsChars, quoteChars]⟩

theorem parseArrayItemsF_round (t : List (List Char)) :
    ∀ (x : List Char) (fuel : Nat),
      (arrayItemsChars (x :: t) ++ [']']).length ≤ fuel →
      parseArrayItemsF fuel (arrayItemsChars (x :: t) ++ [']']) = some (x :: t) := by
  induction t with
  | nil =>
    intro x fuel hf
    match fuel, hf with
    | fuel + 1, _ =>
      rw [arrayItemsChars]
      have h1 : quoteChars x ++ [']'] = '"' :: (escChars x ++ '"' :: [']']) := by
        simp [quoteChars]
      rw [h1, parseArrayItemsF]
      simp [scanQuoted_esc x [']']]
  | cons y t ih =>
    intro x fuel hf
    match fuel, hf with
    | fuel + 1, hf =>
      rw [arrayItemsChars]
      have h1 : (quoteChars x ++ ',' :: arrayItemsChars (y :: t)) ++ [']']
          = '"' :: (escChars x ++ '"' :: (',' :: (arrayItemsChars (y :: t) ++ [']']))) := by
        simp [quoteChars]
      rw [h1, parseArrayItemsF]
      simp only [scanQuoted_esc x (',' :: (arrayItemsChars (y :: t) ++ [']']))]
      have hfuel : (arrayItemsChars (y :: t) ++ [']']).length ≤ fuel := by
        simp only [arrayItemsChars, quoteChars, List.length_append, List.length_cons] at hf ⊢
        omega
      simp [ih y fuel hfuel]

theorem parseStrArray_round (xs : List (List Char)) :
    parseStrArrayChars (stringifyStrArray xs) = some xs := by
  cases xs with
  | nil => rfl
  | cons x t =>
    rw [stringifyStrArray, List.cons_append, parseStrArrayChars.eq_2]
    obtain ⟨tail, htail⟩ := arrayItems_head x t
    rw [if_pos rfl, if_neg]
    · exact parseArrayItemsF_round t x _ le_rfl
    · rw [htail]
      simp

theorem parseItems_stringify (vals : List Scalar) :
    parseItems (vals.map stringifyScalar) = some (vals.map jsonNormalize) := by
  induction vals with
  | nil => rfl
  | cons v vs ih =>
    simp only [List.map_cons, parseItems, parseScalar_stringify v, ih]

theorem decode_encode (vals : List Scalar) :
    decodeCursorChars (encodeCursorChars vals) = some (vals.map jsonNormalize) := by
  rw [decodeCursorChars, encodeCursorChars, parseStrArray_round]
  simpa using parseItems_stringify vals


/-! ## Supporting lemmas: the boundary predicate is lexicographic -/

variable {α : Type}

theorem strictCmp_eq_colBefore [LinearOrder α] (isBefore : Bool) (d : Direction) (x v : α) :
    strictCmp isBefore (d == Direction.DESC) x v
      = (if isBefore then colBefore d x v else colBefore d v x) := by
  cases isBefore <;> cases d <;> simp [strictCmp, colBefore]

theorem nonStrictCmp_eq_strict_or_eq [LinearOrder α] [DecidableEq α]
    (isBefore isReversed : Bool) (x v : α) :
    nonStrictCmp isBefore isReversed x v
      = (strictCmp isBefore isReversed x v || decide (x = v)) := by
  have h1 : decide (x ≤ v) = (decide (x < v) || decide (x = v)) := by
    by_cases hlt : x < v
    · simp [le_of_lt hlt, hlt]
    · by_cases heq : x = v
      · simp [heq]
      · have hnle : ¬x ≤ v := fun hle => (lt_or_eq_of_le hle).elim hlt heq
        simp [hnle, hlt, heq]
  have h2 : decide (v ≤ x) = (decide (v < x) || decide (x = v)) := by
    by_cases hlt : v < x
    · simp [le_of_lt hlt, hlt]
    · by_cases heq : x = v
      · simp [heq]
      · have hnle : ¬v ≤ x := fun hle => (lt_or_eq_of_le hle).elim hlt (fun h => heq h.symm)
        simp [hnle, hlt, heq]
  cases isBefore <;> cases isReversed <;>
    simp only [nonStrictCmp, strictCmp, bne_self_eq_false, if_false, if_true, h1, h2] <;>
    rfl

theorem bool_or_and_or (a b c : Bool) : ((a || b) && (a || c)) = (a || (b && c)) := by
  cases a <;> simp

theorem applyWhere_eq_lexPast [LinearOrder α] [DecidableEq α] (isBefore : Bool)
    (l : List (Direction × α × α)) :
    applyWhere isBefore l = lexPast isBefore l := by
  induction l with
  | nil => rfl
  | cons hd tl ih =>
    obtain ⟨d, v, x⟩ := hd
    cases tl with
    | nil =>
      simp only [applyWhere, lexPast, strictCmp_eq_colBefore, Bool.and_false, Bool.or_false]
    | cons e rest =>
      rw [applyWhere, lexPast, ← ih,
        nonStrictCmp_eq_strict_or_eq, strictCmp_eq_colBefore]
      exact bool_or_and_or _ _ _


/-! ## Supporting lemmas: query plan and list facts -/

theorem addOrderingsFrom_succ (rest : OrderL) :
    ∀ (q : QueryPlan) (i : Nat),
      addOrderingsFrom q (i + 1) rest = { q with orderBy := q.orderBy ++ rest } := by
  induction rest with
  | nil => intro q i; simp [addOrderingsFrom]
  | cons cd rest ih =>
    intro q i
    rw [addOrderingsFrom, if_neg (by omega)]
    rw [ih _ (i + 1)]
    simp

theorem applyOrderingM_cons (q : QueryPlan) (cd : List Char × Direction) (rest : OrderL) :
    applyOrderingM q (cd :: rest) = { q with orderBy := cd :: rest } := by
  rw [applyOrderingM, addOrderingsFrom, if_pos rfl, addOrderingsFrom_succ]
  simp

theorem applyOrderingM_orderBy (q : QueryPlan) (order : OrderL) :
    applyOrderingM q order
      = { q with orderBy := if order.isEmpty then q.orderBy else order } := by
  cases order with
  | nil => simp [applyOrderingM, addOrderingsFrom]
  | cons cd rest => simp [applyOrderingM_cons]

theorem paginatorQuery_eq (order : OrderL) :
    paginatorQuery order = { orderBy := order, clauses := [], limitN := none } := by
  cases order with
  | nil => rfl
  | cons cd rest => rw [paginatorQuery, applyOrderingM_cons]

theorem zip_take_right {β γ : Type} (l : List β) :
    ∀ (b : List γ) (k : Nat), l.length ≤ k → l.zip (b.take k) = l.zip b := by
  induction l with
  | nil => intro b k h; simp
  | cons x xs ih =>
    intro b k h
    cases b with
    | nil => simp
    | cons y ys =>
      match k, h with
      | k + 1, h =>
        simp only [List.take_succ_cons, List.zip_cons_cons]
        rw [ih ys k (by simpa using h)]

theorem replaceFirstQuote_eq (col : List Char) :
    replaceFirstQuote col
      = col.takeWhile (fun c => c != '"') ++ (col.dropWhile (fun c => c != '"')).drop 1 := by
  induction col with
  | nil => rfl
  | cons c cs ih =>
    by_cases h : c = '"'
    · simp [replaceFirstQuote, h, List.takeWhile_cons, List.dropWhile_cons]
    · simp only [replaceFirstQuote, if_neg h, List.takeWhile_cons, List.dropWhile_cons]
      have hb : (c != '"') = true := by simpa using h
      rw [hb]
      simp [ih]


/-! ## Claim theorems -/

/-- C1: the boundary predicate built by `applyWhere` has the claimed
shape — the strict comparator at a column is `>` exactly when
`(boundary == AFTER) != (direction == DESC)` and `<` otherwise, the last
column emits the strict comparison alone, every earlier column emits
`(non-strict) AND (strict OR recurse)` — and it selects exactly the rows
whose sort-key tuple lies strictly past the decoded position under
per-column-direction lexicographic order. -/
theorem c1_boundary_predicate {α : Type} [LinearOrder α] [DecidableEq α] :
    (∀ (isBefore isReversed : Bool) (x v : α),
        strictCmp isBefore isReversed x v
          = (if (!isBefore) != isReversed then decide (v < x) else decide (x < v)))
    ∧ (∀ (isBefore : Bool) (d : Direction) (v x : α),
        applyWhere isBefore [(d, v, x)] = strictCmp isBefore (d == Direction.DESC) x v)
    ∧ (∀ (isBefore : Bool) (d : Direction) (v x : α) (e : Direction × α × α)
          (rest : List (Direction × α × α)),
        applyWhere isBefore ((d, v, x) :: e :: rest)
          = (nonStrictCmp isBefore (d == Direction.DESC) x v
              && (strictCmp isBefore (d == Direction.DESC) x v
                    || applyWhere isBefore (e :: rest))))
    ∧ (∀ (isBefore : Bool) (l : List (Direction × α × α)),
        applyWhere isBefore l = lexPast isBefore l) := by
  refine ⟨?_, fun _ _ _ _ => rfl, fun _ _ _ _ _ _ => rfl, applyWhere_eq_lexPast⟩
  intro isBefore isReversed x v
  cases isBefore <;> cases isReversed <;> simp [strictCmp]

/-- C2 counterexample: for a row whose sort-key value is a JS `Date`,
decoding the encoded cursor does not reproduce the extracted scalar
values — the date comes back as its ISO string, not as a date. -/
theorem c2_counterexample :
    decodeCursorChars (encodeCursorRowChars idOnlyOrder c2Row)
      ≠ some ((idOnlyOrder.map Prod.fst).map (extractValue c2Row)) := by
  decide

/-- C2 (amended): decoding the cursor encoded from any row reproduces
the extracted sort-key values up to JSON normalization — null, numbers
and strings (including strings containing any delimiter character of
the token encoding) round-trip exactly; a date is reproduced as its
ISO-8601 string serialization. -/
theorem c2_roundtrip (order : OrderL) (row : RowL) :
    decodeCursorChars (encodeCursorRowChars order row)
      = some (((order.map Prod.fst).map (extractValue row)).map jsonNormalize) := by
  rw [encodeCursorRowChars]
  have h : ((order.map Prod.fst).map fun column => stringifyScalar (extractValue row column))
      = ((order.map Prod.fst).map (extractValue row)).map stringifyScalar := by
    simp [List.map_map, Function.comp]
  rw [h]
  exact decode_encode _

/-- C8 counterexample: against a two-column order, a well-formed token
holding one value decodes successfully to a one-value sequence — no
length validation happens and no error is raised. -/
theorem c8_counterexample :
    (decodeCursorChars c8Token).isSome = true
      ∧ (decodeCursorChars c8Token).map List.length = some 1
      ∧ c8Order.length = 2 := by
  decide

/-- C8 (amended): `decodeCursor` is length-agnostic — a token produced
by the value encoder decodes successfully to exactly the values it
holds, however many, with no comparison against the Order's length;
a structurally invalid token fails as a whole (the underlying JSON
parse error; there is no `MalformedCursor` type and no recovery). -/
theorem c8_decode_length_agnostic :
    (∀ vals : List Scalar,
        (decodeCursorChars (encodeCursorChars vals)).map List.length
          = some vals.length)
    ∧ decodeCursorChars ['x'] = none := by
  refine ⟨fun vals => ?_, rfl⟩
  rw [decode_encode]
  simp

/-- C4: evaluation at the failing input `{ id: "DESC", n: "ASC" }` —
`buildOrdering` keeps the caller's `id` in first position but overwrites
its direction to ASC, so the final entry of the normalized order is the
non-unique column `n`, contradicting the claim (and the code's own
comment that `id` is always the last ordering field). -/
theorem c4_failing_eval :
    buildOrdering ['E'] (fun _ => none) (fun _ => none) c4CallerOrder
      = [(['E', '.', 'i', 'd'], Direction.ASC), (['E', '.', 'n'], Direction.ASC)]
      ∧ (buildOrdering ['E'] (fun _ => none) (fun _ => none) c4CallerOrder).getLast?
        = some (['E', '.', 'n'], Direction.ASC) := by
  refine ⟨by decide, by decide⟩

/-- C10: `escapeColumn` removes exactly the first double quote (the
JS string-pattern `replace` semantics), then splits on `.` and maps the
driver escape over the parts; on an input with two double quotes the
second one is retained in the identifier handed to the driver's escape
function. -/
theorem c10_escape_column :
    (∀ col : List Char,
        replaceFirstQuote col
          = col.takeWhile (fun c => c != '"')
              ++ (col.dropWhile (fun c => c != '"')).drop 1)
    ∧ (∀ (esc : List Char → List Char) (col : List Char),
        escapeColumn esc col
          = List.intercalate ['.'] ((splitOnDot (replaceFirstQuote col)).map esc))
    ∧ escapeColumn c10Esc ['"', 'a', '"', 'b'] = ['<', 'a', '"', 'b', '>'] := by
  refine ⟨replaceFirstQuote_eq, fun esc col => rfl, by decide⟩


/-- C3 counterexample: at runtime `page()` raises no error when `first`
and `last` are both present (it proceeds with `pageSize = first`), nor
when neither is present — no `InvalidPageOptions` error exists in the
code. -/
theorem c3_counterexample :
    exceptOk (pagePlan idOnlyOrder ⟨some 1, some 2, none, none⟩) = true
      ∧ exceptOk (pagePlan idOnlyOrder ⟨none, none, none, none⟩) = true := by
  decide

/-- C3 (amended): the `first`/`last` exclusivity check is static only —
the conditional type `ValidatePageOptions` accepts an options type
exactly when one of `first`/`last` is present (both or neither map to
`never`, a compile-time rejection) — while at runtime `page()` performs
no validation and raises no error for any combination. -/
theorem c3_validation_static :
    (∀ o : PageOptionsM,
        (validatePageOptions o).isSome = (o.first.isSome != o.last.isSome))
    ∧ (∀ (order : OrderL) (f l : Option Nat),
        exceptOk (pagePlan order ⟨f, l, none, none⟩) = true) := by
  constructor
  · intro o
    cases hf : o.first <;> cases hl : o.last <;>
      simp [validatePageOptions, hf, hl]
  · intro order f l
    simp [pagePlan, applyCursorIfTruthy, exceptOk]

/-- C5 counterexample: an `after` token that is supplied but empty is
falsy in JS, so `hasPreviousPage` is `false` although an `after` cursor
was supplied. -/
theorem c5_counterexample :
    (mkPage (β := Unit) idOnlyOrder ⟨some 1, none, some [], none⟩ [] []).hasPrevious
        = false
      ∧ (some ([] : List Char)).isSome = true := by
  decide

/-- C5 (amended): with `first` set, `hasNextPage` is true iff the query
returned more than `pageSize` rows and `hasPreviousPage` is true iff a
truthy (non-empty) `after` token was supplied; with `last` set,
symmetrically with `before` — JS truthiness, so an empty-string token
counts as not supplied. -/
theorem c5_flags {β : Type} (order : OrderL) (k : Nat)
    (a b : Option (List Char)) (entities : List β) (raw : List RowL) :
    ((mkPage order ⟨some k, none, a, b⟩ entities raw).hasNext
        = decide (k < raw.length)
      ∧ (mkPage order ⟨some k, none, a, b⟩ entities raw).hasPrevious = strTruthy a)
    ∧ ((mkPage order ⟨none, some k, a, b⟩ entities raw).hasPrevious
        = decide (k < raw.length)
      ∧ (mkPage order ⟨none, some k, a, b⟩ entities raw).hasNext = strTruthy b) := by
  refine ⟨⟨?_, ?_⟩, ?_, ?_⟩ <;> simp [mkPage, pageFlagsM, optPageSize]

/-- C6 counterexample: a call with `last: 0` has `last` set, yet the
executed ordering is not inverted (`if (last)` treats `0` as falsy). -/
theorem c6_counterexample :
    pagePlan idOnlyOrder ⟨none, some 0, none, none⟩
        = .ok ⟨idOnlyOrder, [], some 1⟩
      ∧ reverseOrderingL idOnlyOrder ≠ idOnlyOrder := by
  exact ⟨rfl, by decide⟩

/-- C6 (amended): for every call with a truthy (non-zero) `last`, the
query orders by the canonical Order with every direction inverted while
any boundary predicate is built from the original non-inverted order
(polarity comes from `this.order`); the fetched row sequence is wrapped
into edges in fetched order, with no re-reversal; with `first` set the
canonical Order is applied as-is. -/
theorem c6_backward_ordering (order : OrderL) (k : Nat) (vals : List Scalar) :
    (pagePlan order ⟨none, some (k + 1), some (encodeCursorChars vals), none⟩
        = .ok ⟨reverseOrderingL order, [⟨false, order, vals.map jsonNormalize⟩],
            some (k + 2)⟩)
    ∧ (pagePlan order ⟨none, some (k + 1), none, some (encodeCursorChars vals)⟩
        = .ok ⟨reverseOrderingL order, [⟨true, order, vals.map jsonNormalize⟩],
            some (k + 2)⟩)
    ∧ (∀ m : Nat, pagePlan order ⟨some m, none, none, none⟩
        = .ok ⟨order, [], some (m + 1)⟩)
    ∧ (∀ {β : Type} (entities : List β) (raw : List RowL) (a b : Option (List Char)),
        (mkPage order ⟨none, some (k + 1), a, b⟩ entities raw).edges
          = (entities.take (k + 1)).zip raw) := by
  have henc : (encodeCursorChars vals).isEmpty = false := by
    simp [encodeCursorChars, stringifyStrArray]
  have horder : applyOrderingM { orderBy := order, clauses := [], limitN := none }
        (reverseOrderingL order)
      = { orderBy := reverseOrderingL order, clauses := [], limitN := none } := by
    rw [applyOrderingM_orderBy]
    cases order <;> simp [reverseOrderingL]
  refine ⟨?_, ?_, ?_, ?_⟩
  · simp [pagePlan, natTruthy, applyCursorIfTruthy, henc, applyCursorM,
      decode_encode, horder, paginatorQuery_eq]
  · simp [pagePlan, natTruthy, applyCursorIfTruthy, henc, applyCursorM,
      decode_encode, horder, paginatorQuery_eq]
  · intro m
    simp [pagePlan, natTruthy, applyCursorIfTruthy, paginatorQuery_eq]
  · intro β entities raw a b
    simp [mkPage, PageM.edges, optPageSize]

/-- C7: every page request issues the query with `limit (pageSize + 1)`,
and the returned `Page` exposes at most `pageSize` edges; the extra
fetched row influences only the has-more flag — edges, `startCursor`
and `endCursor` are unchanged if the fetched lists are truncated to
`pageSize` first. -/
theorem c7_overfetch (order : OrderL) :
    (∀ (k : Nat) (lo : Option Nat),
        (pagePlan order ⟨some k, lo, none, none⟩).map QueryPlan.limitN
          = .ok (some (k + 1)))
    ∧ (∀ k : Nat,
        (pagePlan order ⟨none, some k, none, none⟩).map QueryPlan.limitN
          = .ok (some (k + 1)))
    ∧ (∀ {β : Type} (opts : PageOptionsM) (entities : List β) (raw : List RowL),
        (mkPage order opts entities raw).edges.length ≤ optPageSize opts
          ∧ (mkPage order opts entities raw).edges
            = (mkPage order opts (entities.take (optPageSize opts))
                (raw.take (optPageSize opts))).edges
          ∧ (mkPage order opts entities raw).startCursor
            = (mkPage order opts (entities.take (optPageSize opts))
                (raw.take (optPageSize opts))).startCursor
          ∧ (mkPage order opts entities raw).endCursor
            = (mkPage order opts (entities.take (optPageSize opts))
                (raw.take (optPageSize opts))).endCursor) := by
  refine ⟨?_, ?_, ?_⟩
  · intro k lo
    cases hl : natTruthy lo <;>
      simp [pagePlan, applyCursorIfTruthy, hl, Except.map]
  · intro k
    cases hl : natTruthy (some k) <;>
      simp [pagePlan, applyCursorIfTruthy, hl, Except.map]
  · intro β opts entities raw
    have hedges : (mkPage order opts entities raw).edges
        = (mkPage order opts (entities.take (optPageSize opts))
            (raw.take (optPageSize opts))).edges := by
      simp only [mkPage, PageM.edges, List.take_take, Nat.min_self]
      rw [zip_take_right]
      simp only [List.length_take]
      omega
    refine ⟨?_, hedges, ?_, ?_⟩
    · simp only [mkPage, PageM.edges, List.length_zip, List.length_take]
      omega
    · rw [PageM.startCursor, PageM.startCursor, hedges]
      rfl
    · rw [PageM.endCursor, PageM.endCursor, hedges]
      rfl

/-- C9 counterexample: with `{ first: 5, last: 0 }`, `last` is present
but falsy, so `first` is not discarded — the call runs as a forward
page of size 5, not as a backward page of size 0. -/
theorem c9_counterexample :
    pageOptionsOf (some ⟨some 5, some 0, none, none⟩) = ⟨some 5, none, none, none⟩
      ∧ pageOptionsOf (some ⟨some 5, some 0, none, none⟩) ≠ ⟨none, some 0, none, none⟩ := by
  decide

/-- C9 (amended): omitting `pagination` or supplying neither `first`
nor `last` defaults to a forward page of size 100, and the options
passed on always satisfy the exactly-one validation (no error); a
truthy (non-zero) `last` discards any supplied `first`. -/
theorem c9_find_defaults :
    pageOptionsOf none = ⟨some 100, none, none, none⟩
    ∧ (∀ a b, pageOptionsOf (some ⟨none, none, a, b⟩) = ⟨some 100, none, a, b⟩)
    ∧ (∀ f n a b, pageOptionsOf (some ⟨f, some (n + 1), a, b⟩)
        = ⟨none, some (n + 1), a, b⟩)
    ∧ (∀ p, (validatePageOptions (pageOptionsOf p)).isSome = true) := by
  refine ⟨rfl, fun a b => rfl, fun f n a b => rfl, fun p => ?_⟩
  rw [pageOptionsOf]
  cases hl : (p.getD ⟨none, none, none, none⟩).last with
  | none => simp [natTruthy, validatePageOptions]
  | some n =>
    by_cases hn : n = 0
    · simp [natTruthy, hn, validatePageOptions]
    · simp [natTruthy, hn, validatePageOptions]


end TPag
